import Mathlib

/-!
Verification development for the VQSyntheticContrast repository.

The embedding below models:
* `src/vq_sce/networks/components/layers/vq_layers.py` (plain `VQBlock`)
* `src/vq_sce/networks/components/layer/layers.py` (time-accepting `VQBlock`)
* `src/vq_sce/networks/components/unet.py` (`UNet.__init__` / `get_encoder` /
  `get_decoder` / `call`)

Tensors are modelled as flat lists of dual numbers (forward value plus one
directional tangent), so that `tf.stop_gradient` — forward identity, zero
gradient — is expressible.  Reshapes to `[-1, D]` are modelled by chunking the
row-major flat storage, exactly the storage semantics of `tf.reshape`.
-/

namespace VQSynth

/-- A scalar carrying its forward value and one forward-mode directional
derivative (tangent).  `tf.stop_gradient` keeps `val` and zeroes `tan`. -/
structure Dual where
  val : ℚ
  tan : ℚ
  deriving DecidableEq, Repr

instance : Add Dual := ⟨fun a b => ⟨a.val + b.val, a.tan + b.tan⟩⟩

instance : Sub Dual := ⟨fun a b => ⟨a.val - b.val, a.tan - b.tan⟩⟩

instance : Mul Dual := ⟨fun a b => ⟨a.val * b.val, a.val * b.tan + a.tan * b.val⟩⟩

instance : Zero Dual := ⟨⟨0, 0⟩⟩

instance : One Dual := ⟨⟨1, 0⟩⟩

/-- Embed a gradient-free constant (e.g. a Python float literal). -/
def c (q : ℚ) : Dual := ⟨q, 0⟩

/-- `tf.stop_gradient`: forward value unchanged, tangent zeroed. -/
def stop_gradient (d : Dual) : Dual := ⟨d.val, 0⟩

@[simp] theorem Dual.val_add (a b : Dual) : (a + b).val = a.val + b.val := rfl

@[simp] theorem Dual.tan_add (a b : Dual) : (a + b).tan = a.tan + b.tan := rfl

@[simp] theorem Dual.val_sub (a b : Dual) : (a - b).val = a.val - b.val := rfl

@[simp] theorem Dual.tan_sub (a b : Dual) : (a - b).tan = a.tan - b.tan := rfl

@[simp] theorem Dual.val_mul (a b : Dual) : (a * b).val = a.val * b.val := rfl

@[simp] theorem Dual.val_zero : (0 : Dual).val = 0 := rfl

@[simp] theorem Dual.tan_zero : (0 : Dual).tan = 0 := rfl

@[simp] theorem Dual.val_one : (1 : Dual).val = 1 := rfl

@[simp] theorem c_val (q : ℚ) : (c q).val = q := rfl

@[simp] theorem c_tan (q : ℚ) : (c q).tan = 0 := rfl

@[simp] theorem stop_gradient_val (d : Dual) : (stop_gradient d).val = d.val := rfl

@[simp] theorem stop_gradient_tan (d : Dual) : (stop_gradient d).tan = 0 := rfl

@[simp] theorem Dual.one_mul_self (d : Dual) : (1 : Dual) * d = d := by
  cases d with
  | mk v t =>
    show Dual.mk (1 * v) (1 * t + 0 * v) = Dual.mk v t
    simp

@[simp] theorem Dual.zero_mul_self (d : Dual) : (0 : Dual) * d = 0 := by
  cases d with
  | mk v t =>
    show Dual.mk (0 * v) (0 * t + 0 * v) = Dual.mk 0 0
    simp

@[simp] theorem Dual.add_zero_self (d : Dual) : d + 0 = d := by
  cases d with
  | mk v t =>
    show Dual.mk (v + 0) (t + 0) = Dual.mk v t
    simp

@[simp] theorem Dual.zero_add_self (d : Dual) : (0 : Dual) + d = d := by
  cases d with
  | mk v t =>
    show Dual.mk (0 + v) (0 + t) = Dual.mk v t
    simp

/-- Sum of a list of duals (models `tf.reduce_sum`). -/
theorem Dual.val_sum (l : List Dual) : l.sum.val = (l.map Dual.val).sum := by
  induction l with
  | nil => simp
  | cons a t ih => simp [ih]

/-- Mean of a list of duals (models `tf.reduce_mean`). -/
def dualMean (l : List Dual) : Dual := l.sum * c (1 / (l.length : ℚ))

/-- `tf.argmin` along an axis: index of the first occurrence of the minimum. -/
def argminIdx : List ℚ → ℕ
  | [] => 0
  | [_] => 0
  | a :: b :: l =>
    let j := argminIdx (b :: l)
    if (b :: l).getD j 0 < a then j + 1 else 0

theorem argminIdx_lt_length : ∀ (l : List ℚ), l ≠ [] → argminIdx l < l.length
  | [], h => absurd rfl h
  | [_], _ => Nat.zero_lt_one
  | a :: b :: l, _ => by
    show (if (b :: l).getD (argminIdx (b :: l)) 0 < a then argminIdx (b :: l) + 1 else 0) <
      (a :: b :: l).length
    split
    · have := argminIdx_lt_length (b :: l) (by simp)
      simpa using Nat.succ_lt_succ this
    · simp

theorem argminIdx_min : ∀ (l : List ℚ) (k : ℕ), k < l.length →
    l.getD (argminIdx l) 0 ≤ l.getD k 0
  | [], _, h => by simp at h
  | [a], k, h => by
    have hk0 : k = 0 := by simpa using Nat.lt_one_iff.mp (by simpa using h)
    subst hk0
    simp [argminIdx]
  | a :: b :: l, k, h => by
    have ne : (b :: l) ≠ [] := by simp
    show (a :: b :: l).getD
      (if (b :: l).getD (argminIdx (b :: l)) 0 < a then argminIdx (b :: l) + 1 else 0) 0 ≤ _
    split
    case isTrue hlt =>
      match k with
      | 0 => exact le_of_lt (by simpa using hlt)
      | k + 1 =>
        have hk : k < (b :: l).length := by simpa using h
        simpa using argminIdx_min (b :: l) k hk
    case isFalse hge =>
      match k with
      | 0 => simp
      | k + 1 =>
        have hk : k < (b :: l).length := by simpa using h
        have h1 : a ≤ (b :: l).getD (argminIdx (b :: l)) 0 := le_of_not_lt hge
        have h2 := argminIdx_min (b :: l) k hk
        simpa using le_trans h1 h2

theorem argminIdx_first : ∀ (l : List ℚ) (k : ℕ), k < argminIdx l →
    l.getD (argminIdx l) 0 < l.getD k 0
  | [], _, h => by simp [argminIdx] at h
  | [_], _, h => by simp [argminIdx] at h
  | a :: b :: l, k, h => by
    by_cases hlt : (b :: l).getD (argminIdx (b :: l)) 0 < a
    · rw [show argminIdx (a :: b :: l) = argminIdx (b :: l) + 1 from by
        show (if (b :: l).getD (argminIdx (b :: l)) 0 < a then argminIdx (b :: l) + 1 else 0) =
          argminIdx (b :: l) + 1
        exact if_pos hlt] at h ⊢
      match k with
      | 0 => simpa using hlt
      | k + 1 =>
        have hk : k < argminIdx (b :: l) := by omega
        simpa using argminIdx_first (b :: l) k hk
    · rw [show argminIdx (a :: b :: l) = 0 from by
        show (if (b :: l).getD (argminIdx (b :: l)) 0 < a then argminIdx (b :: l) + 1 else 0) = 0
        exact if_neg hlt] at h
      omega

/-- `tf.one_hot i K`: length-`K` vector with a gradient-free `1` at position
`i` (all zeros when `i ≥ K`, as in TensorFlow). -/
def oneHot : ℕ → ℕ → List Dual
  | 0, _ => []
  | k + 1, 0 => 1 :: List.replicate k 0
  | k + 1, i + 1 => 0 :: oneHot k i

/-- Column `k` of a row-major matrix (models `dictionary[:, k]`). -/
def col (dict : List (List Dual)) (k : ℕ) : List Dual :=
  dict.map (fun dr => dr.getD k 0)

/-- `tf.reshape(x, [-1, D])` on the flat row-major storage, with explicit
fuel so that the definition is structurally recursive (fuel `xs.length`
always suffices since each step consumes at least one element). -/
def chunkAux {α : Type} : ℕ → ℕ → List α → List (List α)
  | 0, _, _ => []
  | fuel + 1, d, xs =>
    match xs with
    | [] => []
    | x :: rest => (x :: rest).take d :: chunkAux fuel d ((x :: rest).drop d)

def chunkList {α : Type} (d : ℕ) (xs : List α) : List (List α) :=
  if d = 0 then [] else chunkAux xs.length d xs

/-!
`src/vq_sce/networks/components/layers/vq_layers.py` — the plain `VQBlock`
whose `call` takes only `x`.  The dictionary has shape
`[embedding_dim, num_embeddings]` and is modelled as a row-major list of
`embedding_dim` rows, each of length `num_embeddings`.  An input tensor is
modelled by its row-major flat storage, so `tf.reshape(x, [-1, D])` is
`chunkList D x` and the final reshape back to `img_dims` is the identity on
that storage (`List.flatten` of the row list).
-/

namespace VqLayers

def WEIGHT_SCALE : ℚ := 0.02

/-- `VQBlock.get_code_indices`, one row of `flattened` at a time:
`similarity = tf.matmul(flattened, dictionary)` has entries
`row ⬝ dictionary[:, k]`; `distances = Σ row² + Σ dictionary[:, k]² − 2·similarity`;
`tf.argmin(distances, axis=1)` picks the first index of the minimum value. -/
def code_index_row (dictionary : List (List Dual)) (row : List Dual) : ℕ :=
  let K := (dictionary.headD []).length
  let distances := (List.range K).map (fun k =>
    (row.map (fun a => a * a)).sum
      + ((col dictionary k).map (fun a => a * a)).sum
      - c 2 * (List.zipWith (· * ·) row (col dictionary k)).sum)
  argminIdx (distances.map Dual.val)

def get_code_indices (dictionary : List (List Dual))
    (flattened : List (List Dual)) : List ℕ :=
  flattened.map (code_index_row dictionary)

/-- `VQBlock.call` lines 37–53: flatten, look up code indices, one-hot them
and form the quantized tensor.  When `embedding_dim = 1` the quantized value
is `tf.reduce_sum(idx_one_hot * dictionary, axis=1)` scaled by
`WEIGHT_SCALE`; otherwise `tf.matmul(idx_one_hot, dictionary, transpose_b=True)`.
The trailing `tf.reshape(quantized, img_dims)` is the identity on the
row-major storage, realised by `List.flatten`. -/
def quantize (num_embeddings embedding_dim : ℕ) (dictionary : List (List Dual))
    (x : List Dual) : List Dual :=
  let flat := chunkList embedding_dim x
  let code_idx := get_code_indices dictionary flat
  let idx_one_hot := code_idx.map (oneHot num_embeddings)
  if embedding_dim = 1 then
    idx_one_hot.map (fun oh =>
      (List.zipWith (· * ·) oh (dictionary.headD [])).sum * c WEIGHT_SCALE)
  else
    (idx_one_hot.map (fun oh =>
      dictionary.map (fun dr => (List.zipWith (· * ·) oh dr).sum))).flatten

/-- Line 56: `dictionary_loss = tf.reduce_mean(tf.square(tf.stop_gradient(x) - q))`. -/
def dictionary_loss (num_embeddings embedding_dim : ℕ)
    (dictionary : List (List Dual)) (x : List Dual) : Dual :=
  dualMean (List.zipWith (fun a b => (stop_gradient a - b) * (stop_gradient a - b))
    x (quantize num_embeddings embedding_dim dictionary x))

/-- Line 57: `commitment_loss = tf.reduce_mean(tf.square(x - tf.stop_gradient(q)))`. -/
def commitment_loss (num_embeddings embedding_dim : ℕ)
    (dictionary : List (List Dual)) (x : List Dual) : Dual :=
  dualMean (List.zipWith (fun a b => (a - stop_gradient b) * (a - stop_gradient b))
    x (quantize num_embeddings embedding_dim dictionary x))

/-- `VQBlock.call`: returns the straight-through output
`x + tf.stop_gradient(q - x)` together with the auxiliary loss recorded by
`self.add_loss(dictionary_loss + beta * commitment_loss)`. -/
def call (num_embeddings embedding_dim : ℕ) (beta : ℚ)
    (dictionary : List (List Dual)) (x : List Dual) : List Dual × Dual :=
  let q := quantize num_embeddings embedding_dim dictionary x
  let loss :=
    dualMean (List.zipWith (fun a b => (stop_gradient a - b) * (stop_gradient a - b)) x q)
      + c beta *
        dualMean (List.zipWith (fun a b => (a - stop_gradient b) * (a - stop_gradient b)) x q)
  (List.zipWith (fun a b => a + stop_gradient (b - a)) x q, loss)

end VqLayers

/-!
`src/vq_sce/networks/components/layer/layers.py` lines 241–299 — the
time-accepting `VQBlock` variant: `call(self, x, t=None)`.  The body is a
verbatim duplicate of the `vq_layers.py` variant and never uses `t`.
-/

namespace LayerLayers

def WEIGHT_SCALE : ℚ := 0.02

def code_index_row (dictionary : List (List Dual)) (row : List Dual) : ℕ :=
  let K := (dictionary.headD []).length
  let distances := (List.range K).map (fun k =>
    (row.map (fun a => a * a)).sum
      + ((col dictionary k).map (fun a => a * a)).sum
      - c 2 * (List.zipWith (· * ·) row (col dictionary k)).sum)
  argminIdx (distances.map Dual.val)

def get_code_indices (dictionary : List (List Dual))
    (flattened : List (List Dual)) : List ℕ :=
  flattened.map (code_index_row dictionary)

def quantize (num_embeddings embedding_dim : ℕ) (dictionary : List (List Dual))
    (x : List Dual) : List Dual :=
  let flat := chunkList embedding_dim x
  let code_idx := get_code_indices dictionary flat
  let idx_one_hot := code_idx.map (oneHot num_embeddings)
  if embedding_dim = 1 then
    idx_one_hot.map (fun oh =>
      (List.zipWith (· * ·) oh (dictionary.headD [])).sum * c WEIGHT_SCALE)
  else
    (idx_one_hot.map (fun oh =>
      dictionary.map (fun dr => (List.zipWith (· * ·) oh dr).sum))).flatten

/-- `VQBlock.call(self, x, t=None)`: `t` is accepted and ignored. -/
def call (num_embeddings embedding_dim : ℕ) (beta : ℚ)
    (dictionary : List (List Dual)) (x : List Dual) (_t : Option Dual) :
    List Dual × Dual :=
  let q := quantize num_embeddings embedding_dim dictionary x
  let loss :=
    dualMean (List.zipWith (fun a b => (stop_gradient a - b) * (stop_gradient a - b)) x q)
      + c beta *
        dualMean (List.zipWith (fun a b => (a - stop_gradient b) * (a - stop_gradient b)) x q)
  (List.zipWith (fun a b => a + stop_gradient (b - a)) x q, loss)

end LayerLayers

/-! Support lemmas about the TF-primitive models. -/

theorem chunkAux_flatten {α : Type} : ∀ (fuel d : ℕ) (xs : List α), 1 ≤ d →
    xs.length ≤ fuel → (chunkAux fuel d xs).flatten = xs
  | 0, _, [], _, _ => rfl
  | 0, _, _ :: _, _, h => by simp at h
  | _ + 1, _, [], _, _ => rfl
  | fuel + 1, d, x :: xs, hd, h => by
    show ((x :: xs).take d ++ (chunkAux fuel d ((x :: xs).drop d)).flatten) = x :: xs
    rw [chunkAux_flatten fuel d ((x :: xs).drop d) hd (by
      simp only [List.length_drop, List.length_cons]
      simp only [List.length_cons] at h
      omega)]
    exact List.take_append_drop d (x :: xs)

theorem chunkList_flatten {α : Type} (d : ℕ) (xs : List α) (hd : 1 ≤ d) :
    (chunkList d xs).flatten = xs := by
  unfold chunkList
  rw [if_neg (by omega)]
  exact chunkAux_flatten xs.length d xs hd le_rfl

theorem chunkAux_row_length {α : Type} : ∀ (fuel d : ℕ) (xs : List α), 1 ≤ d →
    d ∣ xs.length → xs.length ≤ fuel → ∀ r ∈ chunkAux fuel d xs, r.length = d
  | 0, _, [], _, _, _ => by intro r hr; simp [chunkAux] at hr
  | 0, _, _ :: _, _, _, h => by simp at h
  | _ + 1, _, [], _, _, _ => by intro r hr; simp [chunkAux] at hr
  | fuel + 1, d, x :: xs, hd, hdvd, h => by
    intro r hr
    have hlen : d ≤ (x :: xs).length := Nat.le_of_dvd (by simp) hdvd
    have hr2 : r = (x :: xs).take d ∨ r ∈ chunkAux fuel d ((x :: xs).drop d) := by
      have : chunkAux (fuel + 1) d (x :: xs)
          = (x :: xs).take d :: chunkAux fuel d ((x :: xs).drop d) := rfl
      rw [this] at hr
      simpa using hr
    rcases hr2 with hr2 | hr2
    · subst hr2
      simp only [List.length_take, List.length_cons]
      simp only [List.length_cons] at hlen
      omega
    · exact chunkAux_row_length fuel d ((x :: xs).drop d) hd
        (by
          simp only [List.length_drop]
          exact Nat.dvd_sub' hdvd (dvd_refl d))
        (by
          simp only [List.length_drop, List.length_cons]
          simp only [List.length_cons] at h
          omega) r hr2

theorem chunkList_row_length {α : Type} (d : ℕ) (xs : List α) (hd : 1 ≤ d)
    (hdvd : d ∣ xs.length) : ∀ r ∈ chunkList d xs, r.length = d := by
  unfold chunkList
  rw [if_neg (by omega)]
  exact chunkAux_row_length xs.length d xs hd hdvd le_rfl

theorem chunkAux_map {α β : Type} (f : α → β) : ∀ (fuel d : ℕ) (xs : List α),
    chunkAux fuel d (xs.map f) = (chunkAux fuel d xs).map (List.map f)
  | 0, _, _ => rfl
  | _ + 1, _, [] => rfl
  | fuel + 1, d, x :: xs => by
    show ((x :: xs).map f).take d :: chunkAux fuel d (((x :: xs).map f).drop d)
      = List.map f ((x :: xs).take d) :: (chunkAux fuel d ((x :: xs).drop d)).map (List.map f)
    rw [← List.map_take, ← List.map_drop, chunkAux_map f fuel d ((x :: xs).drop d)]

theorem chunkList_map {α β : Type} (f : α → β) (d : ℕ) (xs : List α) :
    chunkList d (xs.map f) = (chunkList d xs).map (List.map f) := by
  unfold chunkList
  by_cases hd : d = 0
  · simp [hd]
  · rw [if_neg hd, if_neg hd, List.length_map]
    exact chunkAux_map f xs.length d xs

/-- Total length of a flattened uniform-row matrix. -/
theorem flatten_length_uniform {α : Type} (d : ℕ) :
    ∀ (rows : List (List α)), (∀ r ∈ rows, r.length = d) →
    rows.flatten.length = rows.length * d
  | [], _ => by simp
  | r :: rows, h => by
    have hr := h r (by simp)
    have ih := flatten_length_uniform d rows (fun r hm => h r (by simp [hm]))
    simp [hr, ih]
    ring

/-- Recover the rows of a uniform-row matrix from its flattened storage. -/
theorem chunkAux_flatten_uniform {α : Type} (d : ℕ) (hd : 1 ≤ d) :
    ∀ (rows : List (List α)) (fuel : ℕ), (∀ r ∈ rows, r.length = d) →
    rows.flatten.length ≤ fuel → chunkAux fuel d rows.flatten = rows
  | [], fuel, _, _ => by cases fuel <;> rfl
  | r :: rows, fuel, h, hf => by
    have hr : r.length = d := h r (by simp)
    obtain ⟨y, ys, rfl⟩ : ∃ y ys, r = y :: ys := by
      cases r with
      | nil => simp at hr; omega
      | cons y ys => exact ⟨y, ys, rfl⟩
    obtain ⟨fuel, rfl⟩ : ∃ f, fuel = f + 1 := by
      cases fuel with
      | zero => simp at hf
      | succ f => exact ⟨f, rfl⟩
    show (y :: (ys ++ rows.flatten)).take d :: chunkAux fuel d ((y :: (ys ++ rows.flatten)).drop d)
      = (y :: ys) :: rows
    have h1 : (y :: (ys ++ rows.flatten)) = (y :: ys) ++ rows.flatten := by simp
    rw [h1, List.take_append_of_le_length (by omega), List.drop_append_of_le_length (by omega)]
    have h2 : (y :: ys).take d = y :: ys := List.take_of_length_le (by omega)
    have h3 : (y :: ys).drop d = [] := List.drop_eq_nil_of_le (by omega)
    rw [h2, h3]
    simp only [List.nil_append]
    rw [chunkAux_flatten_uniform d hd rows fuel (fun r hm => h r (by simp [hm]))
      (by simp at hf ⊢; omega)]

theorem chunkList_flatten_uniform {α : Type} (d : ℕ) (hd : 1 ≤ d)
    (rows : List (List α)) (h : ∀ r ∈ rows, r.length = d) :
    chunkList d rows.flatten = rows := by
  unfold chunkList
  rw [if_neg (by omega)]
  exact chunkAux_flatten_uniform d hd rows rows.flatten.length h le_rfl

/-- Dot product against the all-zero tail of a one-hot vector. -/
theorem replicate_zero_dot : ∀ (k : ℕ) (l : List Dual),
    (List.zipWith (· * ·) (List.replicate k (0 : Dual)) l).sum = 0
  | 0, _ => rfl
  | _ + 1, [] => rfl
  | k + 1, a :: l => by
    show ((0 : Dual) * a) + (List.zipWith (· * ·) (List.replicate k (0 : Dual)) l).sum = 0
    rw [replicate_zero_dot k l]
    simp

/-- Multiplying by a one-hot vector selects the indexed entry:
`Σ_k oneHot[k]·dr[k] = dr[i]` when `i < dr.length = K`. -/
theorem oneHot_dot : ∀ (dr : List Dual) (i : ℕ), i < dr.length →
    (List.zipWith (· * ·) (oneHot dr.length i) dr).sum = dr.getD i 0
  | [], i, h => by simp at h
  | a :: dr, 0, _ => by
    show ((1 : Dual) * a) + (List.zipWith (· * ·) (List.replicate dr.length (0 : Dual)) dr).sum
      = (a :: dr).getD 0 0
    rw [replicate_zero_dot dr.length dr]
    simp
  | a :: dr, i + 1, h => by
    show ((0 : Dual) * a) + (List.zipWith (· * ·) (oneHot dr.length i) dr).sum
      = (a :: dr).getD (i + 1) 0
    rw [oneHot_dot dr i (by simpa using h)]
    simp

/-- C2 helper and claim-side squared-distance on the forward values. -/
def sqDistVals (u v : List Dual) : ℚ :=
  (List.zipWith (fun a b => (a.val - b.val) ^ 2) u v).sum

/-- `‖a‖² + ‖b‖² − 2·a⬝b = ‖a − b‖²` on rational lists of equal length. -/
theorem sq_dist_expand : ∀ (u v : List ℚ), u.length = v.length →
    (u.map (fun a => a * a)).sum + (v.map (fun a => a * a)).sum
      - 2 * (List.zipWith (· * ·) u v).sum
    = (List.zipWith (fun a b => (a - b) ^ 2) u v).sum
  | [], [], _ => by simp
  | [], _ :: _, h => by simp at h
  | _ :: _, [], h => by simp at h
  | a :: u, b :: v, h => by
    simp only [List.map_cons, List.zipWith_cons_cons, List.sum_cons]
    rw [← sq_dist_expand u v (by simpa using h)]
    ring

/-- The computed distance entry (via `‖a‖² + ‖b‖² − 2·a⬝b`) equals the true
squared Euclidean distance, on forward values. -/
theorem distance_val : ∀ (row w : List Dual), row.length = w.length →
    ((row.map (fun a => a * a)).sum + (w.map (fun a => a * a)).sum
      - c 2 * (List.zipWith (· * ·) row w).sum).val
    = sqDistVals row w
  | [], [], _ => by simp [sqDistVals]
  | [], _ :: _, h => by simp at h
  | _ :: _, [], h => by simp at h
  | a :: row, b :: w, h => by
    have ih := distance_val row w (by simpa using h)
    simp only [Dual.val_sub, Dual.val_add, Dual.val_mul, c_val] at ih ⊢
    simp only [List.map_cons, List.sum_cons, List.zipWith_cons_cons, sqDistVals,
      Dual.val_add, Dual.val_mul] at ih ⊢
    rw [← ih]
    ring

theorem getD_map_range (g : ℕ → ℚ) (K k : ℕ) (hk : k < K) :
    ((List.range K).map g).getD k 0 = g k := by
  rw [List.getD_eq_getElem _ _ (by simpa using hk)]
  simp

/-- The code index returned for any row is a valid codebook column index. -/
theorem code_index_row_lt (dictionary : List (List Dual)) (row : List Dual) (K : ℕ)
    (hne : dictionary ≠ []) (hrows : ∀ dr ∈ dictionary, dr.length = K) (hK : 1 ≤ K) :
    VqLayers.code_index_row dictionary row < K := by
  obtain ⟨d0, rest, rfl⟩ : ∃ d0 rest, dictionary = d0 :: rest := by
    cases dictionary with
    | nil => exact absurd rfl hne
    | cons d0 rest => exact ⟨d0, rest, rfl⟩
  have hK0 : d0.length = K := hrows d0 (by simp)
  have hexp : VqLayers.code_index_row (d0 :: rest) row =
      argminIdx ((((List.range K).map (fun k =>
        (row.map (fun a => a * a)).sum
          + ((col (d0 :: rest) k).map (fun a => a * a)).sum
          - c 2 * (List.zipWith (· * ·) row (col (d0 :: rest) k)).sum))).map Dual.val) := by
    simp only [VqLayers.code_index_row, List.headD_cons, hK0]
  rw [hexp]
  have h := argminIdx_lt_length ((((List.range K).map (fun k =>
    (row.map (fun a => a * a)).sum
      + ((col (d0 :: rest) k).map (fun a => a * a)).sum
      - c 2 * (List.zipWith (· * ·) row (col (d0 :: rest) k)).sum))).map Dual.val)
    (by
      intro hnil
      have := congrArg List.length hnil
      simp at this
      omega)
  simpa using h

/-- Multiplying the one-hot row into the dictionary (the
`tf.matmul(idx_one_hot, dictionary, transpose_b=True)` row) selects column
`i` of the dictionary. -/
theorem oneHot_matmul_col (dictionary : List (List Dual)) (K i : ℕ)
    (hrows : ∀ dr ∈ dictionary, dr.length = K) (hi : i < K) :
    dictionary.map (fun dr => (List.zipWith (· * ·) (oneHot K i) dr).sum)
      = col dictionary i := by
  unfold col
  apply List.map_congr_left
  intro dr hdr
  have h := hrows dr hdr
  rw [← h]
  exact oneHot_dot dr i (by omega)

/-- The straight-through estimator `x + stop_gradient(q − x)` has the forward
values of `q`. -/
theorem ste_map_val : ∀ (x q : List Dual), x.length = q.length →
    (List.zipWith (fun a b => a + stop_gradient (b - a)) x q).map Dual.val
      = q.map Dual.val
  | [], [], _ => rfl
  | [], _ :: _, h => by simp at h
  | _ :: _, [], h => by simp at h
  | a :: x, b :: q, h => by
    simp only [List.zipWith_cons_cons, List.map_cons]
    rw [ste_map_val x q (by simpa using h)]
    have hab : (a + stop_gradient (b - a)).val = b.val := by
      simp only [Dual.val_add, stop_gradient_val, Dual.val_sub]
      ring
    rw [hab]

theorem chunkList_count_mul {α : Type} (d : ℕ) (x : List α) (hd : 1 ≤ d)
    (hdvd : d ∣ x.length) : (chunkList d x).length * d = x.length := by
  have h1 := flatten_length_uniform d (chunkList d x) (chunkList_row_length d x hd hdvd)
  rw [chunkList_flatten d x hd] at h1
  exact h1.symm

/-- In the `embedding_dim ≠ 1` branch, the quantized rows are exactly the
selected dictionary columns (no interpolation, no scaling). -/
theorem quantize_eq_cols (num_embeddings embedding_dim : ℕ)
    (dictionary : List (List Dual)) (x : List Dual)
    (hD : embedding_dim ≠ 1) (hne : dictionary ≠ [])
    (hrows : ∀ dr ∈ dictionary, dr.length = num_embeddings)
    (hK : 1 ≤ num_embeddings) :
    VqLayers.quantize num_embeddings embedding_dim dictionary x
      = ((VqLayers.get_code_indices dictionary (chunkList embedding_dim x)).map
          (fun i => col dictionary i)).flatten := by
  simp only [VqLayers.quantize]
  rw [if_neg hD]
  congr 1
  rw [List.map_map]
  apply List.map_congr_left
  intro i hi
  have hiK : i < num_embeddings := by
    simp only [VqLayers.get_code_indices, List.mem_map] at hi
    obtain ⟨r, _, rfl⟩ := hi
    exact code_index_row_lt dictionary r num_embeddings hne hrows hK
  exact oneHot_matmul_col dictionary num_embeddings i hrows hiK

theorem quantize_length_of_ne_one (num_embeddings embedding_dim : ℕ)
    (dictionary : List (List Dual)) (x : List Dual)
    (hD : embedding_dim ≠ 1) (hDpos : 1 ≤ embedding_dim) (hne : dictionary ≠ [])
    (hdict : dictionary.length = embedding_dim)
    (hrows : ∀ dr ∈ dictionary, dr.length = num_embeddings)
    (hK : 1 ≤ num_embeddings) (hdvd : embedding_dim ∣ x.length) :
    (VqLayers.quantize num_embeddings embedding_dim dictionary x).length = x.length := by
  rw [quantize_eq_cols num_embeddings embedding_dim dictionary x hD hne hrows hK]
  rw [flatten_length_uniform embedding_dim _ (by
    intro r hr
    simp only [List.mem_map] at hr
    obtain ⟨i, _, rfl⟩ := hr
    simp [col, hdict])]
  rw [List.length_map]
  have hcount : (VqLayers.get_code_indices dictionary (chunkList embedding_dim x)).length
      = (chunkList embedding_dim x).length := by
    simp [VqLayers.get_code_indices]
  rw [hcount]
  exact chunkList_count_mul embedding_dim x hDpos hdvd

/-- In the `embedding_dim = 1` branch, the quantized entries are the selected
scalar codebook values multiplied by `WEIGHT_SCALE`. -/
theorem quantize_one_eq (num_embeddings : ℕ) (dictionary : List (List Dual))
    (x : List Dual) (hne : dictionary ≠ [])
    (hrows : ∀ dr ∈ dictionary, dr.length = num_embeddings)
    (hK : 1 ≤ num_embeddings) :
    VqLayers.quantize num_embeddings 1 dictionary x
      = (VqLayers.get_code_indices dictionary (chunkList 1 x)).map
          (fun i => (dictionary.headD []).getD i 0 * c VqLayers.WEIGHT_SCALE) := by
  simp only [VqLayers.quantize, if_true]
  rw [List.map_map]
  apply List.map_congr_left
  intro i hi
  have hiK : i < num_embeddings := by
    simp only [VqLayers.get_code_indices, List.mem_map] at hi
    obtain ⟨r, _, rfl⟩ := hi
    exact code_index_row_lt dictionary r num_embeddings hne hrows hK
  have hhead : (dictionary.headD []).length = num_embeddings := by
    obtain ⟨d0, rest, rfl⟩ : ∃ d0 rest, dictionary = d0 :: rest := by
      cases dictionary with
      | nil => exact absurd rfl hne
      | cons d0 rest => exact ⟨d0, rest, rfl⟩
    exact hrows d0 (by simp)
  show (List.zipWith (· * ·) (oneHot num_embeddings i) (dictionary.headD [])).sum
      * c VqLayers.WEIGHT_SCALE
    = (dictionary.headD []).getD i 0 * c VqLayers.WEIGHT_SCALE
  rw [← hhead]
  rw [oneHot_dot (dictionary.headD []) i (by omega)]

/-- C2: for every input `x`, the auxiliary loss recorded by the
`VQBlock.call` of `vq_layers.py` equals
`dictionary_loss + beta * commitment_loss`, where
`dictionary_loss = mean((detach(x) − quantized)²)` and
`commitment_loss = mean((x − detach(quantized))²)`, and `detach`
(`tf.stop_gradient`) keeps the forward numeric value while contributing zero
gradient. -/
theorem vq_loss_formula (num_embeddings embedding_dim : ℕ) (beta : ℚ)
    (dictionary : List (List Dual)) (x : List Dual) :
    (VqLayers.call num_embeddings embedding_dim beta dictionary x).2 =
      VqLayers.dictionary_loss num_embeddings embedding_dim dictionary x
        + c beta * VqLayers.commitment_loss num_embeddings embedding_dim dictionary x
    ∧ (∀ d : Dual, (stop_gradient d).val = d.val ∧ (stop_gradient d).tan = 0) :=
  ⟨rfl, fun _ => ⟨rfl, rfl⟩⟩

/-- C10: the two `VQBlock` implementations — the time-accepting variant of
`layer/layers.py` and the plain variant of `layers/vq_layers.py` — are
extensionally equal: on the same codebook, `num_embeddings`, `embedding_dim`
and `beta`, `call(x, t)` returns the same quantized output and records the
same auxiliary loss as the plain `call(x)`, for every `x` and every `t`. -/
theorem vq_variants_agree (num_embeddings embedding_dim : ℕ) (beta : ℚ)
    (dictionary : List (List Dual)) (x : List Dual) (t : Option Dual) :
    LayerLayers.call num_embeddings embedding_dim beta dictionary x t =
      VqLayers.call num_embeddings embedding_dim beta dictionary x := rfl

/-- C4: `get_code_indices` returns, for every flattened row, the index of the
codebook column minimizing the squared Euclidean distance, computed through
the identity `‖a−b‖² = ‖a‖² + ‖b‖² − 2·a⬝b`, with ties broken by the lowest
index; and on the 1-D codebook `{−1, 1}` input `0.6` selects index `1`
(entry `1`), input `−0.9` selects index `0` (entry `−1`), and input exactly
`0.0` deterministically selects the lowest index `0`. -/
theorem vq_nearest_neighbor :
    (∀ (dictionary : List (List Dual)) (row : List Dual) (K : ℕ),
      dictionary ≠ [] → (∀ dr ∈ dictionary, dr.length = K) → 1 ≤ K →
      row.length = dictionary.length →
      VqLayers.code_index_row dictionary row < K ∧
      (∀ k < K,
        ((row.map (fun a => a * a)).sum + ((col dictionary k).map (fun a => a * a)).sum
          - c 2 * (List.zipWith (· * ·) row (col dictionary k)).sum).val
        = sqDistVals row (col dictionary k)) ∧
      (∀ k < K,
        sqDistVals row (col dictionary (VqLayers.code_index_row dictionary row))
          ≤ sqDistVals row (col dictionary k)) ∧
      (∀ k < VqLayers.code_index_row dictionary row,
        sqDistVals row (col dictionary (VqLayers.code_index_row dictionary row))
          < sqDistVals row (col dictionary k)))
    ∧ VqLayers.get_code_indices [[c (-1), c 1]] [[c (3/5)]] = [1]
    ∧ (col [[c (-1), c 1]] 1).map Dual.val = [1]
    ∧ VqLayers.get_code_indices [[c (-1), c 1]] [[c (-9/10)]] = [0]
    ∧ (col [[c (-1), c 1]] 0).map Dual.val = [-1]
    ∧ VqLayers.get_code_indices [[c (-1), c 1]] [[c 0]] = [0] := by
  refine ⟨?_, ?_, by simp [col], ?_, by simp [col], ?_⟩
  · intro dictionary row K hne hrows hK hrow
    obtain ⟨d0, rest, rfl⟩ : ∃ d0 rest, dictionary = d0 :: rest := by
      cases dictionary with
      | nil => exact absurd rfl hne
      | cons d0 rest => exact ⟨d0, rest, rfl⟩
    have hK0 : d0.length = K := hrows d0 (by simp)
    have hexp : VqLayers.code_index_row (d0 :: rest) row =
        argminIdx ((((List.range K).map (fun k =>
          (row.map (fun a => a * a)).sum
            + ((col (d0 :: rest) k).map (fun a => a * a)).sum
            - c 2 * (List.zipWith (· * ·) row (col (d0 :: rest) k)).sum))).map Dual.val) := by
      simp only [VqLayers.code_index_row, List.headD_cons, hK0]
    set L := (((List.range K).map (fun k =>
      (row.map (fun a => a * a)).sum
        + ((col (d0 :: rest) k).map (fun a => a * a)).sum
        - c 2 * (List.zipWith (· * ·) row (col (d0 :: rest) k)).sum))).map Dual.val with hL
    have hlen : L.length = K := by simp [hL]
    have hLne : L ≠ [] := by
      intro hnil
      rw [hnil] at hlen
      simp at hlen
      omega
    have hgetD : ∀ k, k < K → L.getD k 0 = sqDistVals row (col (d0 :: rest) k) := by
      intro k hk
      rw [hL, List.map_map]
      rw [getD_map_range _ K k hk]
      exact distance_val row (col (d0 :: rest) k) (by simp [col, hrow])
    have hjK : VqLayers.code_index_row (d0 :: rest) row < K := by
      rw [hexp, ← hlen]
      exact argminIdx_lt_length L hLne
    refine ⟨hjK, ?_, ?_, ?_⟩
    · intro k _
      exact distance_val row (col (d0 :: rest) k) (by simp [col, hrow])
    · intro k hk
      have := argminIdx_min L k (by omega)
      rw [hgetD (argminIdx L) (by rw [← hlen]; exact argminIdx_lt_length L hLne),
        hgetD k hk] at this
      rw [hexp]
      exact this
    · intro k hk
      rw [hexp] at hk
      have hkK : k < K := by
        have := hjK
        rw [hexp] at this
        omega
      have := argminIdx_first L k hk
      rw [hgetD (argminIdx L) (by rw [← hlen]; exact argminIdx_lt_length L hLne),
        hgetD k hkK] at this
      rw [hexp]
      exact this
  · norm_num [VqLayers.get_code_indices, VqLayers.code_index_row, argminIdx, col,
      List.range_succ]
  · norm_num [VqLayers.get_code_indices, VqLayers.code_index_row, argminIdx, col,
      List.range_succ]
  · norm_num [VqLayers.get_code_indices, VqLayers.code_index_row, argminIdx, col,
      List.range_succ]

/-- C3: for `embedding_dim > 1`, the value returned by `VQBlock.call` is
numerically equal to the quantized value (straight-through estimator), and
every output element's feature vector equals exactly one codebook entry —
one column of the `embedding_dim × num_embeddings` dictionary — with no
interpolation between entries. -/
theorem vq_output_is_codebook_entry (num_embeddings embedding_dim : ℕ) (beta : ℚ)
    (dictionary : List (List Dual)) (x : List Dual)
    (hD : 1 < embedding_dim)
    (hdict : dictionary.length = embedding_dim)
    (hrows : ∀ dr ∈ dictionary, dr.length = num_embeddings)
    (hK : 1 ≤ num_embeddings)
    (hdvd : embedding_dim ∣ x.length) :
    (VqLayers.call num_embeddings embedding_dim beta dictionary x).1.map Dual.val
      = (VqLayers.quantize num_embeddings embedding_dim dictionary x).map Dual.val
    ∧ ∀ row ∈ chunkList embedding_dim
        (VqLayers.call num_embeddings embedding_dim beta dictionary x).1,
        ∃ j, j < num_embeddings
          ∧ row.map Dual.val = (col dictionary j).map Dual.val := by
  have hDne : embedding_dim ≠ 1 := by omega
  have hDpos : 1 ≤ embedding_dim := by omega
  have hne : dictionary ≠ [] := by
    intro h
    rw [h] at hdict
    simp at hdict
    omega
  have hcall : (VqLayers.call num_embeddings embedding_dim beta dictionary x).1
      = List.zipWith (fun a b => a + stop_gradient (b - a)) x
          (VqLayers.quantize num_embeddings embedding_dim dictionary x) := rfl
  have hqlen := quantize_length_of_ne_one num_embeddings embedding_dim dictionary x
    hDne hDpos hne hdict hrows hK hdvd
  have part1 : (VqLayers.call num_embeddings embedding_dim beta dictionary x).1.map Dual.val
      = (VqLayers.quantize num_embeddings embedding_dim dictionary x).map Dual.val := by
    rw [hcall]
    exact ste_map_val x _ hqlen.symm
  refine ⟨part1, ?_⟩
  intro row hrowmem
  have hq := quantize_eq_cols num_embeddings embedding_dim dictionary x hDne hne hrows hK
  have hqrows : ∀ r ∈ (VqLayers.get_code_indices dictionary
      (chunkList embedding_dim x)).map (fun i => col dictionary i),
      r.length = embedding_dim := by
    intro r hr
    simp only [List.mem_map] at hr
    obtain ⟨i, _, rfl⟩ := hr
    simp [col, hdict]
  have h3 : chunkList embedding_dim
      (VqLayers.quantize num_embeddings embedding_dim dictionary x)
      = (VqLayers.get_code_indices dictionary (chunkList embedding_dim x)).map
          (fun i => col dictionary i) := by
    rw [hq]
    exact chunkList_flatten_uniform embedding_dim hDpos _ hqrows
  have h1 : row.map Dual.val ∈ (chunkList embedding_dim
      (VqLayers.call num_embeddings embedding_dim beta dictionary x).1).map
        (List.map Dual.val) :=
    List.mem_map_of_mem _ hrowmem
  have h2 : (chunkList embedding_dim
      (VqLayers.call num_embeddings embedding_dim beta dictionary x).1).map
        (List.map Dual.val)
      = ((VqLayers.get_code_indices dictionary (chunkList embedding_dim x)).map
          (fun i => col dictionary i)).map (List.map Dual.val) := by
    rw [← chunkList_map, part1, chunkList_map, h3]
  rw [h2] at h1
  rw [List.map_map] at h1
  simp only [List.mem_map, Function.comp] at h1
  obtain ⟨i, hi, heq⟩ := h1
  have hiK : i < num_embeddings := by
    simp only [VqLayers.get_code_indices, List.mem_map] at hi
    obtain ⟨r, _, rfl⟩ := hi
    exact code_index_row_lt dictionary r num_embeddings hne hrows hK
  exact ⟨i, hiK, heq.symm⟩

/-- Witness for C3: the claim applied to a concrete 2-dimensional codebook
with two entries and a one-row input. -/
theorem vq_output_is_codebook_entry_witness :
    (VqLayers.call 2 2 (1/4) [[c 1, c 2], [c 3, c 4]] [c 1, c 3]).1.map Dual.val
      = (VqLayers.quantize 2 2 [[c 1, c 2], [c 3, c 4]] [c 1, c 3]).map Dual.val
    ∧ ∀ row ∈ chunkList 2 (VqLayers.call 2 2 (1/4) [[c 1, c 2], [c 3, c 4]] [c 1, c 3]).1,
        ∃ j, j < 2 ∧ row.map Dual.val = (col [[c 1, c 2], [c 3, c 4]] j).map Dual.val :=
  vq_output_is_codebook_entry 2 2 (1/4) [[c 1, c 2], [c 3, c 4]] [c 1, c 3]
    (by norm_num) (by simp) (by simp) (by norm_num) (by simp)

/-- C5: when `embedding_dim = 1`, every quantized value produced by
`VQBlock.call` is the one-hot-selected scalar codebook entry multiplied by
the fixed constant `WEIGHT_SCALE = 0.02`; in the `embedding_dim > 1` case
the quantized rows are the unscaled dictionary columns — the scaling is
applied in the scalar case only. -/
theorem vq_scalar_weight_scale :
    (∀ (num_embeddings : ℕ) (beta : ℚ) (dictionary : List (List Dual)) (x : List Dual),
      dictionary ≠ [] → (∀ dr ∈ dictionary, dr.length = num_embeddings) →
      1 ≤ num_embeddings →
      (VqLayers.call num_embeddings 1 beta dictionary x).1.map Dual.val
        = (VqLayers.get_code_indices dictionary (chunkList 1 x)).map
            (fun i => ((dictionary.headD []).getD i 0).val * VqLayers.WEIGHT_SCALE))
    ∧ (∀ (num_embeddings embedding_dim : ℕ) (dictionary : List (List Dual))
        (x : List Dual), 1 < embedding_dim → dictionary ≠ [] →
        (∀ dr ∈ dictionary, dr.length = num_embeddings) → 1 ≤ num_embeddings →
        VqLayers.quantize num_embeddings embedding_dim dictionary x
          = ((VqLayers.get_code_indices dictionary (chunkList embedding_dim x)).map
              (fun i => col dictionary i)).flatten) := by
  constructor
  · intro num_embeddings beta dictionary x hne hrows hK
    have hq := quantize_one_eq num_embeddings dictionary x hne hrows hK
    have hqlen : (VqLayers.quantize num_embeddings 1 dictionary x).length = x.length := by
      rw [hq, List.length_map]
      have hcount : (VqLayers.get_code_indices dictionary (chunkList 1 x)).length
          = (chunkList 1 x).length := by
        simp [VqLayers.get_code_indices]
      rw [hcount]
      have := chunkList_count_mul 1 x le_rfl (one_dvd _)
      omega
    have hcall : (VqLayers.call num_embeddings 1 beta dictionary x).1
        = List.zipWith (fun a b => a + stop_gradient (b - a)) x
            (VqLayers.quantize num_embeddings 1 dictionary x) := rfl
    rw [hcall, ste_map_val x _ hqlen.symm, hq, List.map_map]
    rfl
  · intro num_embeddings embedding_dim dictionary x hD hne hrows hK
    exact quantize_eq_cols num_embeddings embedding_dim dictionary x (by omega) hne hrows hK

/-- Witness for C5: the scalar case applied to the 1-D codebook `{−1, 1}`
with input `0.6`. -/
theorem vq_scalar_weight_scale_witness :
    (VqLayers.call 2 1 (1/4) [[c (-1), c 1]] [c (3/5)]).1.map Dual.val
      = (VqLayers.get_code_indices [[c (-1), c 1]] (chunkList 1 [c (3/5)])).map
          (fun i => (([[c (-1), c 1]].headD []).getD i 0).val * VqLayers.WEIGHT_SCALE) :=
  vq_scalar_weight_scale.1 2 (1/4) [[c (-1), c 1]] [c (3/5)]
    (by simp) (by simp) (by norm_num)

/-- Witness for C4: the general nearest-neighbour statement applied to the
concrete 1-D codebook `{−1, 1}` and the input row `[0.6]`. -/
theorem vq_nearest_neighbor_witness :
    VqLayers.code_index_row [[c (-1), c 1]] [c (3/5)] < 2 :=
  (vq_nearest_neighbor.1 [[c (-1), c 1]] [c (3/5)] 2 (by simp)
    (by simp) (by norm_num) (by simp)).1

/-!
`src/vq_sce/networks/components/unet.py` — construction model.

`UNet.__init__`, `get_encoder` and `get_decoder` are translated
statement-by-statement.  The convolutional block classes are imported by the
source from `.layers.conv_layers`, a module that is not present under the
repository sources; only their *constructor arguments* matter for the
construction-time claims, so the blocks are recorded as the argument tuples
`unet.py` passes to them.  Python's unbound-local (`NameError`), assertion
and missing-key (`KeyError`) failures are modelled with `Except String`.
-/

namespace Unet

def MAX_CHANNELS : ℕ := 512

/-- The configuration options `unet.py` reads (spec §6). `layers` is an
integer because the depth validation also rejects negative values. -/
structure Config where
  source_dims : ℕ × ℕ × ℕ
  target_dims : ℕ × ℕ × ℕ
  nc : ℕ
  layers : ℤ
  vq_layers : Option (List (String × ℕ))
  vq_beta : ℚ
  upsample_layer : Bool
  residual : Bool

/-- Modelled from the spec: the `DownBlock` class lives in
`conv_layers.py`, which is not under the repository sources.  Per §4.2/§4.3
a block is constructed from a channel count, kernel shape, stride tuple and
an optional VectorQuantizer with the configured embedding count (paired here
with the commitment weight `beta`).  Only this constructor state is needed
for the construction-time claims. -/
structure DownBlock where
  channels : ℕ
  kernel : ℕ × ℕ × ℕ
  strides : ℕ × ℕ × ℕ
  vq : Option (ℕ × ℚ)
  deriving Repr

/-- Modelled from the spec: the `UpBlock` class of `conv_layers.py`
(not under the repository sources), recorded by its constructor state. -/
structure UpBlock where
  channels : ℕ
  kernel : ℕ × ℕ × ℕ
  strides : ℕ × ℕ × ℕ
  upsamp_factor : ℕ
  vq : Option (ℕ × ℚ)
  deriving Repr

/-- The network graph assembled by `UNet.__init__`. -/
structure UNetModel where
  encoder : List DownBlock
  bottom_layer : DownBlock
  decoder : List UpBlock
  upsample_out : Option UpBlock
  output_vq : Option (ℕ × ℚ)
  residual : Bool
  upsample_layer : Bool
  deriving Repr

def intLog2Aux : ℕ → ℕ → ℕ
  | 0, _ => 0
  | fuel + 1, n => if 2 ≤ n then intLog2Aux fuel (n / 2) + 1 else 0

/-- `int(np.log2(n))` for `n ≥ 1`: the floor of the base-2 logarithm,
written with explicit fuel (`n` halving steps always suffice) so that the
definition reduces structurally. -/
def intLog2 (n : ℕ) : ℕ := intLog2Aux n n

/-- One down-sampling step of the spatial schedule (`get_encoder` lines
64–96, identical for the source and target trajectories): if halving the
leading axis would bring it below 2, use isotropic stride `(2,2,2)` and
kernel `(4,4,4)` and halve all three axes; otherwise use stride `(1,2,2)`
and kernel `(2,4,4)` and halve only the two trailing axes.  Returns
`(strides, kernel, new_dims)`. -/
def dimStep (dims : ℕ × ℕ × ℕ) : (ℕ × ℕ × ℕ) × (ℕ × ℕ × ℕ) × (ℕ × ℕ × ℕ) :=
  if dims.1 / 2 < 2 then
    ((2, 2, 2), (4, 4, 4), (dims.1 / 2, dims.2.1 / 2, dims.2.2 / 2))
  else
    ((1, 2, 2), (2, 4, 4), (dims.1, dims.2.1 / 2, dims.2.2 / 2))

/-- The `cache` dictionary of `get_encoder`: per-stage channel counts and
TARGET-trajectory strides/kernels consumed by `get_decoder`. -/
structure Cache where
  channels : List ℕ
  strides : List (ℕ × ℕ × ℕ)
  kernels : List (ℕ × ℕ × ℕ)
  upsamp_factor : List ℕ
  deriving Repr

/-- The first `for i in range(0, layers)` loop of `get_encoder`: fills the
cache and leaves `channels`, `source_kernel`, `source_strides` bound to the
values of the LAST iteration (`none` when the loop body never runs). -/
def schedLoop (nc : ℕ) : List ℕ → (ℕ × ℕ × ℕ) → (ℕ × ℕ × ℕ) →
    Cache × Option (ℕ × (ℕ × ℕ × ℕ) × (ℕ × ℕ × ℕ))
  | [], _, _ => (⟨[], [], [], []⟩, none)
  | i :: rest, sd, td =>
    let channels := min (nc * 2 ^ i) MAX_CHANNELS
    let s := dimStep sd
    let t := dimStep td
    let r := schedLoop nc rest s.2.2 t.2.2
    (⟨channels :: r.1.channels, t.1 :: r.1.strides,
      t.2.1 :: r.1.kernels, (t.2.2.1 / s.2.2.1) :: r.1.upsamp_factor⟩,
     some (r.2.getD (channels, s.2.1, s.1)))

/-- `use_vq = stage in self._vq_layers` followed by
`self._vq_config["embeddings"] = self._config["vq_layers"][stage]`:
returns the embedding count passed to the stage's VQBlock (if any) and the
new value of the mutable `"embeddings"` entry of `self._vq_config`. -/
def stageVq (vq_layers : Option (List (String × ℕ))) (stage : String)
    (embState : Option ℕ) : Option ℕ × Option ℕ :=
  match vq_layers with
  | none => (none, embState)
  | some m =>
    match m.lookup stage with
    | some e => (some e, some e)
    | none => (none, embState)

/-- The second `for i in range(0, layers)` loop of `get_encoder`: every
`DownBlock` receives the SAME `channels`, `source_kernel`, `source_strides`
(the leftover values of the schedule loop), threading the mutable
`"embeddings"` entry through the per-stage VQ lookups. -/
def mkEncoder (vql : Option (List (String × ℕ))) (beta : ℚ)
    (cks : ℕ × (ℕ × ℕ × ℕ) × (ℕ × ℕ × ℕ)) :
    List ℕ → Option ℕ → List DownBlock × Option ℕ
  | [], st => ([], st)
  | i :: rest, st =>
    let p := stageVq vql ("down_" ++ toString i) st
    let blk : DownBlock := ⟨cks.1, cks.2.1, cks.2.2, p.1.map (fun e => (e, beta))⟩
    let q := mkEncoder vql beta cks rest p.2
    (blk :: q.1, q.2)

/-- The `for i in range(layers - 1, -1, -1)` loop of `get_decoder`: per-stage
cache values, descending stage order; also tracks the final value of the
loop variable `channels` (used afterwards by the upsample block). -/
def mkDecoder (vql : Option (List (String × ℕ))) (beta : ℚ) (cache : Cache) :
    List ℕ → Option ℕ → Option ℕ → List UpBlock × Option ℕ × Option ℕ
  | [], st, lastC => ([], st, lastC)
  | i :: rest, st, _ =>
    let channels := cache.channels.getD i 0
    let strides := cache.strides.getD i (0, 0, 0)
    let kernel := cache.kernels.getD i (0, 0, 0)
    let upsf := cache.upsamp_factor.getD i 0
    let p := stageVq vql ("up_" ++ toString i) st
    let blk : UpBlock := ⟨channels, kernel, strides, upsf, p.1.map (fun e => (e, beta))⟩
    let q := mkDecoder vql beta cache rest p.2 (some channels)
    (blk :: q.1, q.2.1, q.2.2)

/-- `UNet.__init__` (which validates the depth and then runs `get_encoder`
and `get_decoder`).  Python failure modes are modelled as `Except.error`:
the depth assertion, `int(np.log2(0))` overflow, unbound loop locals
(`NameError`) and the missing `"embeddings"` key (`KeyError`). -/
def build (config : Config) : Except String UNetModel := do
  let minHW := min config.source_dims.2.1 config.source_dims.2.2
  if minHW = 0 then
    throw "OverflowError: cannot convert float infinity to integer"
  let max_num_layers : ℤ := (intLog2 minHW : ℤ)
  unless config.layers ≤ max_num_layers ∧ 0 ≤ config.layers do
    throw "AssertionError: Maximum number of generator layers"
  let L := config.layers.toNat
  let sched := schedLoop config.nc (List.range L) config.source_dims config.target_dims
  let cache := sched.1
  let lastVars := sched.2
  let encSt ← (match List.range L, lastVars with
    | [], _ => pure (([] : List DownBlock), (none : Option ℕ))
    | idxs, some cks => pure (mkEncoder config.vq_layers config.vq_beta cks idxs none)
    | _ :: _, none => throw "NameError: channels is not defined")
  let pB := stageVq config.vq_layers "bottom" encSt.2
  let bottom ← (match lastVars with
    | some cks => pure (DownBlock.mk cks.1 cks.2.1 (1, 1, 1)
        (pB.1.map (fun e => (e, config.vq_beta))))
    | none => throw "NameError: channels is not defined")
  let dec := mkDecoder config.vq_layers config.vq_beta cache
    (List.range L).reverse pB.2 none
  let upsSt ← (if config.upsample_layer then
      match dec.2.2 with
      | some ch =>
        let pU := stageVq config.vq_layers "upsamp" dec.2.1
        pure ((some (UpBlock.mk ch (2, 4, 4) (1, 2, 2) 1
          (pU.1.map (fun e => (e, config.vq_beta)))), pU.2))
      | none => throw "NameError: channels is not defined in get_decoder"
    else pure ((none : Option UpBlock), dec.2.1))
  let keys := match config.vq_layers with
    | some m => m.map Prod.fst
    | none => []
  let output_vq ← (if "final" ∈ keys then
      match upsSt.2 with
      | some e => pure (some (e, config.vq_beta))
      | none => throw "KeyError: embeddings"
    else pure (none : Option (ℕ × ℚ)))
  pure ⟨encSt.1, bottom, dec.1, upsSt.1, output_vq, config.residual, config.upsample_layer⟩

end Unet

/-!
`UNet.call` (`unet.py` lines 195–228) — forward-composition model for the
output-combination policy.  The convolutional blocks live in the absent
`conv_layers.py` module, so every component is an abstract function over an
arbitrary tensor type with addition; the claim is about how `call` composes
and combines them. -/

namespace UnetForward

/-- The callable components of a constructed `UNet`, as used by `call`:
encoder blocks return `(x, skip)`, decoder blocks take `(x, skip)`, the
optional output VQ maps a tensor to its quantized tensor. -/
structure UNetM (T : Type) where
  upsample_layer : Bool
  residual : Bool
  upsample_in : T → T
  encoder : List (T → T × T)
  bottom_layer : T → T × T
  decoder : List (T → T → T)
  upsample_out : T → T → T
  final_layer : T → T
  output_vq : Option (T → T)

/-- `UNet.call`, translated line by line: optional input upsampling, the
encoder loop collecting skips, the bottom layer, the reversed-skip decoder
loop via `zip`, the optional upsample block, the final projection, and the
four-way `if/elif/else` output combination. -/
def UNetM.call {T : Type} [Add T] (m : UNetM T) (x : T) : T × Option T :=
  let upsampled_x := if m.upsample_layer then m.upsample_in x else x
  let enc := m.encoder.foldl (fun (acc : T × List T) layer =>
    let r := layer acc.1
    (r.1, acc.2 ++ [r.2])) (x, [])
  let xb := (m.bottom_layer enc.1).1
  let skip_layers := enc.2.reverse
  let xd := (skip_layers.zip m.decoder).foldl (fun y p => p.2 y p.1) xb
  let xu := if m.upsample_layer then m.upsample_out xd upsampled_x else xd
  let xf := m.final_layer xu
  match m.output_vq, m.residual with
  | none, false => (xf, none)
  | none, true => (xf + upsampled_x, none)
  | some vq, false => (xf, some (vq xf + upsampled_x))
  | some vq, true => (xf + upsampled_x, some (vq xf + upsampled_x))

/-- The `upsampled_input` of the policy table: the up-sampled copy of the
raw input when the extra upsample stage is configured, the raw input
otherwise. -/
def UNetM.upsampled_input {T : Type} (m : UNetM T) (x : T) : T :=
  if m.upsample_layer then m.upsample_in x else x

/-- `final_projection(x)` of the policy table: the input taken through the
encoder stack, bottom layer, decoder stack, optional upsample stage and the
final 1×1×1 projection. -/
def UNetM.final_projection {T : Type} (m : UNetM T) (x : T) : T :=
  let enc := m.encoder.foldl (fun (acc : T × List T) layer =>
    let r := layer acc.1
    (r.1, acc.2 ++ [r.2])) (x, [])
  let xb := (m.bottom_layer enc.1).1
  let skip_layers := enc.2.reverse
  let xd := (skip_layers.zip m.decoder).foldl (fun y p => p.2 y p.1) xb
  let xu := if m.upsample_layer then m.upsample_out xd (m.upsampled_input x) else xd
  m.final_layer xu

end UnetForward

/-- C1: `UNet.call` reproduces the four-way output-combination policy
exactly, for every input tensor and every fixed parameter set: with no
output VQ and no residual it returns `(final_projection(x), none)`; with no
output VQ and residual `(final_projection(x) + upsampled_input, none)`; with
output VQ and no residual
`(final_projection(x), VQ(final_projection(x)) + upsampled_input)`; with
both
`(final_projection(x) + upsampled_input, VQ(final_projection(x)) + upsampled_input)`. -/
theorem unet_call_output_policy {T : Type} [Add T] (m : UnetForward.UNetM T) (x : T) :
    m.call x =
      match m.output_vq, m.residual with
      | none, false => (m.final_projection x, none)
      | none, true => (m.final_projection x + m.upsampled_input x, none)
      | some vq, false =>
        (m.final_projection x, some (vq (m.final_projection x) + m.upsampled_input x))
      | some vq, true =>
        (m.final_projection x + m.upsampled_input x,
         some (vq (m.final_projection x) + m.upsampled_input x)) := by
  cases h : m.output_vq <;> cases hr : m.residual <;>
    simp only [UnetForward.UNetM.call, UnetForward.UNetM.final_projection,
      UnetForward.UNetM.upsampled_input, h, hr]

/-- C6 (evaluation at the failing input): with
`vq_layers = {"bottom": 8, "final": 16}` construction succeeds but the
output-level VectorQuantizer receives the STALE embedding count `8` set for
the `"bottom"` stage — not the configured `16` — because `get_decoder` never
assigns `self._vq_config["embeddings"]` for `"final"`; and with
`vq_layers = {"final": 16}` alone, construction fails with a `KeyError`
since the `"embeddings"` entry was never created. -/
theorem unet_final_vq_stale_embeddings :
    (Unet.build ⟨(4, 16, 16), (4, 16, 16), 4, 1,
        some [("bottom", 8), ("final", 16)], 1/4, false, false⟩).map
      (fun m => (m.output_vq.map Prod.fst, m.bottom_layer.vq.map Prod.fst))
      = Except.ok (some 8, some 8)
    ∧ Unet.build ⟨(4, 16, 16), (4, 16, 16), 4, 1, some [("final", 16)], 1/4, false, false⟩
      = Except.error "KeyError: embeddings" :=
  ⟨rfl, rfl⟩

/-- C7 (evaluation at the failing input): with `nc = 4`, `layers = 2` and
source dims `(4,16,16)`, BOTH encoder blocks are built with the
last-iteration values — channel count `8`, kernel `(2,4,4)`, strides
`(1,2,2)` — although stage 0 should get `min(4·2⁰, 512) = 4`; the per-stage
values survive only in the cache consumed by the decoder (channels `[8, 4]`
in reverse stage order). -/
theorem unet_encoder_shared_last_stage :
    (Unet.build ⟨(4, 16, 16), (4, 16, 16), 4, 2, none, 1/4, false, false⟩).map
      (fun m => (m.encoder.map Unet.DownBlock.channels,
                 m.encoder.map Unet.DownBlock.kernel,
                 m.encoder.map Unet.DownBlock.strides,
                 m.decoder.map Unet.UpBlock.channels))
      = Except.ok ([8, 8], [(2, 4, 4), (2, 4, 4)], [(1, 2, 2), (1, 2, 2)], [8, 4])
    ∧ min (4 * 2 ^ 0) Unet.MAX_CHANNELS = 4 :=
  ⟨rfl, rfl⟩

/-- C8 (evaluation at the failing input): constructing with `layers = 0`
does not degenerate to bottleneck-only processing — it raises a `NameError`,
because the schedule loop body never runs and `channels`, `source_kernel`,
`source_strides` are unbound when the bottom layer is built. -/
theorem unet_layers_zero_raises :
    Unet.build ⟨(4, 16, 16), (4, 16, 16), 4, 0, none, 1/4, false, false⟩
      = Except.error "NameError: channels is not defined" := rfl

/-- C9 (evaluation at the failing input): the depth validation itself
behaves as claimed — depth `−1` and depths above `floor(log2(min(h, w)))`
raise the assertion error before any block is built, and depth equal to the
bound passes validation (succeeding outright for bound `4`) — but for
source dims `(4,1,1)` the bound is `0` and construction with the
depth `0` equal to it still fails (with the `layers = 0` `NameError`),
contradicting the claim that depth exactly equal to the bound succeeds. -/
theorem unet_depth_bound_evaluation :
    Unet.build ⟨(4, 1, 1), (4, 1, 1), 4, 0, none, 1/4, false, false⟩
      = Except.error "NameError: channels is not defined"
    ∧ Unet.build ⟨(4, 1, 1), (4, 1, 1), 4, 1, none, 1/4, false, false⟩
      = Except.error "AssertionError: Maximum number of generator layers"
    ∧ Unet.build ⟨(4, 16, 16), (4, 16, 16), 4, -1, none, 1/4, false, false⟩
      = Except.error "AssertionError: Maximum number of generator layers"
    ∧ (Unet.build ⟨(4, 16, 16), (4, 16, 16), 4, 4, none, 1/4, false, false⟩).map
        (fun m => m.encoder.length)
      = Except.ok 4
    ∧ Unet.build ⟨(4, 16, 16), (4, 16, 16), 4, 5, none, 1/4, false, false⟩
      = Except.error "AssertionError: Maximum number of generator layers" :=
  ⟨rfl, rfl, rfl, rfl, rfl⟩

end VQSynth
